import Mathlib

/-!
Verification of the c2FmZQ/storage library (Go) against its specification.

Bytes are modelled as `Nat` (values below 256 where it matters), byte slices
as `List Nat`.  Standard-library cryptographic primitives (AES block cipher,
HMAC-SHA-256, AES-GCM) are modelled as abstract functions; the repository's
own logic (parsing, padding, chunking, nonce derivation, container framing,
transactions) is translated directly from the source.
-/

namespace StorageProof

/-- Errors surfaced by the crypto layer.  `indexOutOfRange` models a Go
runtime panic caused by indexing a slice out of bounds. -/
inductive GoErr where
  | decryptFailed
  | indexOutOfRange
  deriving DecidableEq, Repr

/-- Big-endian byte string of `v` on `k` bytes, least significant byte last.
`beBytes 8` is `binary.BigEndian.PutUint64`, `beBytes 4` the 4-byte variant. -/
def beBytes : Nat → Nat → List Nat
  | 0, _ => []
  | k + 1, v => beBytes k (v / 256) ++ [v % 256]

/-- `binary.BigEndian.PutUint64`. -/
def be64 (v : Nat) : List Nat := beBytes 8 v

/-- The 4-byte big-endian encoding used by `binary.Write(w, binary.BigEndian, int32(n))`
for `0 ≤ n`. -/
def be32 (v : Nat) : List Nat := beBytes 4 v

/-- Reading a big-endian `int32` from 4 bytes (`binary.Read` with
`binary.BigEndian`): the sign bit makes values at or above `2^31` negative. -/
def beInt32 (l : List Nat) : Int :=
  let v : Nat := l.foldl (fun a b => a * 256 + b % 256) 0
  if v < 2 ^ 31 then (v : Int) else (v : Int) - 2 ^ 32

theorem beBytes_length (k v : Nat) : (beBytes k v).length = k := by
  induction k generalizing v with
  | zero => rfl
  | succ k ih => simp [beBytes, ih]

theorem beBytes_inj (k : Nat) (v w : Nat) (hv : v < 2 ^ (8 * k)) (hw : w < 2 ^ (8 * k))
    (h : beBytes k v = beBytes k w) : v = w := by
  induction k generalizing v w with
  | zero =>
    simp [Nat.mul_zero, Nat.pow_zero, Nat.lt_one_iff] at hv hw
    omega
  | succ k ih =>
    simp only [beBytes] at h
    have hlen : (beBytes k (v / 256)).length = (beBytes k (w / 256)).length := by
      simp [beBytes_length]
    have h1 : beBytes k (v / 256) = beBytes k (w / 256) := by
      have := List.append_inj_left h hlen
      exact this
    have h2 : v % 256 = w % 256 := by
      have := List.append_inj_right h hlen
      simpa using this
    have hv2 : v / 256 < 2 ^ (8 * k) := by
      have : v < 256 * 2 ^ (8 * k) := by
        have : (2 : Nat) ^ (8 * (k + 1)) = 256 * 2 ^ (8 * k) := by
          rw [Nat.mul_succ, Nat.pow_add]
          ring
        omega
      omega
    have hw2 : w / 256 < 2 ^ (8 * k) := by
      have : w < 256 * 2 ^ (8 * k) := by
        have : (2 : Nat) ^ (8 * (k + 1)) = 256 * 2 ^ (8 * k) := by
          rw [Nat.mul_succ, Nat.pow_add]
          ring
        omega
      omega
    have := ih _ _ hv2 hw2 h1
    omega

theorem be64_inj (v w : Nat) (hv : v < 2 ^ 64) (hw : w < 2 ^ 64)
    (h : be64 v = be64 w) : v = w :=
  beBytes_inj 8 v w (by norm_num at hv ⊢; omega) (by norm_num at hw ⊢; omega) h

theorem beInt32_be32 (v : Nat) (h : v < 2 ^ 31) : beInt32 (be32 v) = (v : Int) := by
  have hfold : ∀ k (a v : Nat), v < 2 ^ (8 * k) →
      (beBytes k v).foldl (fun a b => a * 256 + b % 256) a = a * 2 ^ (8 * k) + v := by
    intro k
    induction k with
    | zero => intro a v hv; simp [beBytes]; omega
    | succ k ih =>
      intro a v hv
      have hv2 : v / 256 < 2 ^ (8 * k) := by
        have : (2 : Nat) ^ (8 * (k + 1)) = 256 * 2 ^ (8 * k) := by
          rw [Nat.mul_succ, Nat.pow_add]; ring
        omega
      simp only [beBytes, List.foldl_append, List.foldl_cons, List.foldl_nil]
      rw [ih a (v / 256) hv2]
      have : (2 : Nat) ^ (8 * (k + 1)) = 2 ^ (8 * k) * 256 := by
        rw [Nat.mul_succ, Nat.pow_add]
      rw [this]
      have hmod : v % 256 % 256 = v % 256 := Nat.mod_mod_of_dvd v dvd_rfl
      rw [hmod]
      have := Nat.div_add_mod v 256
      ring_nf
      omega
  have h32 : v < 2 ^ (8 * 4) := by norm_num at h ⊢; omega
  unfold beInt32 be32
  rw [hfold 4 0 v h32]
  simp only [Nat.zero_mul, Nat.zero_add]
  rw [if_pos (by norm_num at h ⊢; omega)]

/-! ### AES-CBC + HMAC small-data encryption (`AESKey.Encrypt` / `AESKey.Decrypt`)

The AES-256-CBC block cipher operations (`cipher.NewCBCEncrypter` /
`cipher.NewCBCDecrypter` + `CryptBlocks`) and the keyed hash
(`HMAC-SHA-256`, method `AESKey.Hash`) are Go standard-library primitives;
they appear here as the abstract fields of `AESPrims`.  Go's `CryptBlocks`
writes exactly `len(src)` bytes into a destination buffer of that size;
`cryptBlocks` records this length fact for an arbitrary model cipher. -/

structure AESPrims where
  cbcEnc : List Nat → List Nat → List Nat
  cbcDec : List Nat → List Nat → List Nat
  hash : List Nat → List Nat

/-- `dst := make([]byte, len(src)); mode.CryptBlocks(dst, src)`:
the result has exactly the length of `src`. -/
def cryptBlocks (f : List Nat → List Nat) (src : List Nat) : List Nat :=
  (f src).take src.length ++ List.replicate (src.length - (f src).length) 0

theorem cryptBlocks_length (f : List Nat → List Nat) (src : List Nat) :
    (cryptBlocks f src).length = src.length := by
  simp [cryptBlocks]
  omega

theorem cryptBlocks_of_length_eq (f : List Nat → List Nat) (src : List Nat)
    (h : (f src).length = src.length) : cryptBlocks f src = f src := by
  simp [cryptBlocks, h]

/-- `AESKey.Encrypt` (non-TPM path).  The random 16-byte IV is passed in
explicitly.  Output layout: `version=1 || IV || CBC(pad(data)) || HMAC`. -/
def aesEncrypt (k : AESPrims) (iv data : List Nat) : List Nat :=
  let padSize := 16 - data.length % 16
  let pData := data ++ List.replicate padSize padSize
  let encData := cryptBlocks (k.cbcEnc iv) pData
  let hm := k.hash encData
  1 :: (iv ++ encData ++ hm)

/-- `AESKey.Decrypt` (non-TPM path), translated line by line.
`dec[len(dec)-1]` on an empty `dec` is a Go index-out-of-range panic,
surfaced as `GoErr.indexOutOfRange`. -/
def aesDecrypt (k : AESPrims) (data : List Nat) : Except GoErr (List Nat) :=
  match data with
  | [] => .error .decryptFailed
  | version :: rest =>
    if rest.length % 16 ≠ 0 ∨ rest.length < 16 + 32 then .error .decryptFailed
    else if version ≠ 1 then .error .decryptFailed
    else
      let iv := rest.take 16
      let rest2 := rest.drop 16
      let encData := rest2.take (rest2.length - 32)
      let hm := rest2.drop (rest2.length - 32)
      if hm ≠ k.hash encData then .error .decryptFailed
      else
        let dec := cryptBlocks (k.cbcDec iv) encData
        match dec.getLast? with
        | none => .error .indexOutOfRange
        | some padSize =>
          if padSize > encData.length ∨ padSize > 16 then .error .decryptFailed
          else if (List.range padSize).any
              (fun i => decide (dec.getD (dec.length - i - 1) 0 ≠ padSize)) then
            .error .decryptFailed
          else .ok (dec.take (dec.length - padSize))

/-- A concrete instantiation of the abstract primitives used to evaluate the
model at specific inputs: the identity block cipher and a constant hash. -/
def idPrims : AESPrims :=
  { cbcEnc := fun _ c => c
    cbcDec := fun _ c => c
    hash := fun _ => List.replicate 32 0 }

/-- C4: the claim says every input of length below 65 yields `DecryptFailed`
with no abnormal termination.  The code only rejects inputs with
`len(data)-1 < 16+32`, so a 49-byte input — version 1, a 16-byte IV and a
32-byte MAC that verifies for the empty ciphertext (here realised by a
concrete hash model; with the real HMAC the matching MAC is
`HMAC(key, "")`) — reaches `dec[len(dec)-1]` with `len(dec) = 0`: an
index-out-of-range panic instead of `DecryptFailed`. -/
theorem aesDecrypt_panics_on_49_byte_input :
    aesDecrypt idPrims (1 :: List.replicate 48 0) = .error .indexOutOfRange := by
  rfl

theorem take_all_append (l₁ l₂ : List Nat) (h : l₁.length = 16) : (l₁ ++ l₂).take 16 = l₁ := by
  rw [← h]; exact List.take_left ..

theorem drop_all_append (l₁ l₂ : List Nat) (h : l₁.length = 16) : (l₁ ++ l₂).drop 16 = l₂ := by
  rw [← h]; exact List.drop_left ..

theorem aesDecrypt_parts (k : AESPrims) (iv E H data : List Nat) (p : Nat)
    (hiv : iv.length = 16) (hp1 : 1 ≤ p) (hp16 : p ≤ 16)
    (hElen : E.length = data.length + p)
    (hEmod : E.length % 16 = 0)
    (hH : H = k.hash E) (hHlen : H.length = 32)
    (hDec : k.cbcDec iv E = data ++ List.replicate p p) :
    aesDecrypt k (1 :: (iv ++ E ++ H)) = .ok data := by
  have hrl : (iv ++ E ++ H).length = 16 + E.length + 32 := by
    simp [hiv, hHlen]
    omega
  have hcond : ¬((iv ++ E ++ H).length % 16 ≠ 0 ∨ (iv ++ E ++ H).length < 16 + 32) := by
    rw [hrl]
    omega
  have htake : (iv ++ E ++ H).take 16 = iv := by
    rw [List.append_assoc]
    exact take_all_append _ _ hiv
  have hdrop : (iv ++ E ++ H).drop 16 = E ++ H := by
    rw [List.append_assoc]
    exact drop_all_append _ _ hiv
  have hlen32 : (E ++ H).length - 32 = E.length := by
    simp [hHlen]
  have htake2 : (E ++ H).take ((E ++ H).length - 32) = E := by
    rw [hlen32]
    exact List.take_left ..
  have hdrop2 : (E ++ H).drop ((E ++ H).length - 32) = H := by
    rw [hlen32]
    exact List.drop_left ..
  have hDecLenPre : (k.cbcDec iv E).length = E.length := by
    rw [hDec]
    simp
    omega
  have hDecEq : cryptBlocks (k.cbcDec iv) E = data ++ List.replicate p p := by
    rw [cryptBlocks_of_length_eq _ _ hDecLenPre, hDec]
  have hLast : (data ++ List.replicate p p).getLast? = some p := by
    rw [List.getLast?_append]
    obtain ⟨m, hm2⟩ : ∃ m, p = m + 1 := ⟨p - 1, by omega⟩
    rw [hm2, List.getLast?_replicate]
    simp
  have hpdLen : (data ++ List.replicate p p).length = E.length := by
    simp
    omega
  have hPadLe : ¬(p > E.length ∨ p > 16) := by
    push_neg
    omega
  have hPadBytes : ((List.range p).any
      (fun i => decide ((data ++ List.replicate p p).getD
        ((data ++ List.replicate p p).length - i - 1) 0 ≠ p))) = false := by
    rw [List.any_eq_false]
    intro i hi
    rw [List.mem_range] at hi
    simp only [decide_eq_true_eq, Decidable.not_not, decide_not, Bool.not_eq_false,
      decide_eq_true_eq]
    have hidx : (data ++ List.replicate p p).length - i - 1
        = data.length + (p - i - 1) := by
      simp
      omega
    rw [hidx]
    have hgr : (data ++ List.replicate p p).getD (data.length + (p - i - 1)) 0
        = (List.replicate p p).getD (p - i - 1) 0 := by
      simp [List.getD, List.getElem?_append_right]
    rw [hgr]
    have hlt : p - i - 1 < p := by omega
    simp [List.getD, List.getElem?_replicate, hlt]
  have hResult : (data ++ List.replicate p p).take
      ((data ++ List.replicate p p).length - p) = data := by
    have : (data ++ List.replicate p p).length - p = data.length := by
      simp
    rw [this]
    exact List.take_left ..
  simp only [aesDecrypt]
  rw [if_neg hcond, if_neg (by norm_num : ¬(1 : Nat) ≠ 1), htake, hdrop, htake2, hdrop2]
  rw [if_neg (by rw [hH]; exact fun hcontra => hcontra rfl)]
  rw [hDecEq, hLast]
  simp only [if_neg hPadLe, hPadBytes, Bool.false_eq_true, if_false, hResult]

/-- C5: AES encrypt-then-decrypt is the identity, for every plaintext, over
any model of the standard-library primitives in which CBC decryption inverts
CBC encryption, CBC preserves length, and the keyed hash has 32 bytes. -/
theorem aesDecrypt_aesEncrypt (k : AESPrims) (iv data : List Nat)
    (hiv : iv.length = 16)
    (hhash : ∀ b, (k.hash b).length = 32)
    (hencLen : ∀ iv p, (k.cbcEnc iv p).length = p.length)
    (hinv : ∀ iv p, k.cbcDec iv (k.cbcEnc iv p) = p) :
    aesDecrypt k (aesEncrypt k iv data) = .ok data := by
  have hr : data.length % 16 < 16 := Nat.mod_lt _ (by norm_num)
  have hEncEq : cryptBlocks (k.cbcEnc iv) (data ++ List.replicate (16 - data.length % 16)
      (16 - data.length % 16)) = k.cbcEnc iv (data ++ List.replicate (16 - data.length % 16)
      (16 - data.length % 16)) :=
    cryptBlocks_of_length_eq _ _ (hencLen iv _)
  have hshape : aesEncrypt k iv data = 1 :: (iv ++
      k.cbcEnc iv (data ++ List.replicate (16 - data.length % 16) (16 - data.length % 16)) ++
      k.hash (k.cbcEnc iv (data ++ List.replicate (16 - data.length % 16)
        (16 - data.length % 16)))) := by
    simp only [aesEncrypt]
    rw [hEncEq]
  rw [hshape]
  apply aesDecrypt_parts k iv _ _ data (16 - data.length % 16) hiv (by omega) (by omega)
  · rw [hencLen]
    simp
  · rw [hencLen]
    simp
    omega
  · rfl
  · exact hhash _
  · exact hinv ..

/-- Witness for C5 at a concrete input (the identity cipher model, plaintext
"A", zero IV). -/
theorem aesDecrypt_aesEncrypt_witness :
    (List.replicate 16 0).length = 16 ∧
      aesDecrypt idPrims (aesEncrypt idPrims (List.replicate 16 0) [65]) = .ok [65] :=
  ⟨by decide,
   aesDecrypt_aesEncrypt idPrims (List.replicate 16 0) [65] (by decide)
     (fun _ => rfl) (fun _ _ => rfl) (fun _ _ => rfl)⟩

/-! ### Chunked AEAD streams (`AESStreamWriter` / `AESStreamReader`)

The underlying `io.Reader`/`io.Writer` is modelled by an explicit byte list
`file` plus a cursor `pos` stored in the reader state.  The AES-GCM AEAD
(`cipher.NewGCM`) is abstract: `AEAD.Seal`/`AEAD.Open` stand for
`gcm.Seal`/`gcm.Open` and `AEAD.Overhead` for `gcm.Overhead()`. -/

/-- `aesFileChunkSize = 1 << 20`. -/
def aesFileChunkSize : Nat := 1 <<< 20

theorem aesFileChunkSize_pos : 0 < aesFileChunkSize := by decide

structure AEAD where
  Seal : List Nat → List Nat → List Nat
  Open : List Nat → List Nat → Option (List Nat)
  Overhead : Nat

/-- `gcmNonce`: a 12-byte nonce, the first four bytes copied from `ctx`
(zero-filled if `ctx` is shorter), then the big-endian 64-bit counter. -/
def gcmNonce (ctx : List Nat) (counter : Nat) : List Nat :=
  (ctx.take 4 ++ List.replicate (4 - (ctx.take 4).length) 0) ++ be64 counter

/-- The nonce used by `AESStreamReader.readChunk`:
counter `r.off/aesFileChunkSize + 1`. -/
def readerNonce (ctx : List Nat) (off : Nat) : List Nat :=
  gcmNonce ctx (off / aesFileChunkSize + 1)

/-- `AESStreamWriter` state: chunk counter `c`, pending buffer `buf`, and the
bytes written so far to the underlying writer (`out`). -/
structure AESStreamWriter where
  c : Nat
  buf : List Nat
  out : List Nat

/-- `AESStreamWriter.writeChunk`: increment the counter, seal `b` with the
nonce for the new counter, write the sealed bytes. -/
def writeChunkW (G : AEAD) (ctx : List Nat) (st : AESStreamWriter) (b : List Nat) :
    AESStreamWriter :=
  { c := st.c + 1, buf := st.buf, out := st.out ++ G.Seal (gcmNonce ctx (st.c + 1)) b }

/-- The loop in `AESStreamWriter.Write`: emit full chunks while the buffer
holds at least `aesFileChunkSize` bytes. -/
def emitFull (G : AEAD) (ctx : List Nat) (st : AESStreamWriter) : AESStreamWriter :=
  if _h : aesFileChunkSize ≤ st.buf.length then
    emitFull G ctx
      { writeChunkW G ctx st (st.buf.take aesFileChunkSize) with
        buf := st.buf.drop aesFileChunkSize }
  else st
termination_by st.buf.length
decreasing_by
  simp only [List.length_drop]
  have := aesFileChunkSize_pos
  omega

/-- `AESStreamWriter.Write`. -/
def writerWrite (G : AEAD) (ctx : List Nat) (st : AESStreamWriter) (b : List Nat) :
    AESStreamWriter :=
  emitFull G ctx { st with buf := st.buf ++ b }

/-- `AESStreamWriter.Close`: emit the final (possibly short) chunk. -/
def writerClose (G : AEAD) (ctx : List Nat) (st : AESStreamWriter) : AESStreamWriter :=
  if 0 < st.buf.length then writeChunkW G ctx st st.buf else st

/-- The full ciphertext produced by writing `P` through the stream writer and
closing it. -/
def streamCipher (G : AEAD) (ctx P : List Nat) : List Nat :=
  (writerClose G ctx (writerWrite G ctx ⟨0, [], []⟩ P)).out

/-- Specification view of the ciphertext: chunk `i` (0-based) of the
plaintext sealed with counter `i+1`. -/
def cipherFrom (G : AEAD) (ctx : List Nat) (i : Nat) (Q : List Nat) : List Nat :=
  if Q.isEmpty then []
  else
    G.Seal (gcmNonce ctx (i + 1)) (Q.take aesFileChunkSize) ++
      cipherFrom G ctx (i + 1) (Q.drop aesFileChunkSize)
termination_by Q.length
decreasing_by
  simp only [List.length_drop]
  have := aesFileChunkSize_pos
  cases Q with
  | nil => simp_all
  | cons a l => simp; omega

/-- Number of chunks in a plaintext of length `len`. -/
def numChunks (len : Nat) : Nat := (len + aesFileChunkSize - 1) / aesFileChunkSize

/-- Errors surfaced by the stream layer.  `invalid` is `fs.ErrInvalid`. -/
inductive StreamErr where
  | eof
  | decryptFailed
  | invalid
  | invalidLastChunk
  deriving DecidableEq, Repr

/-- `AESStreamReader` state: `start`/`off` as in the source, plus the cursor
`pos` of the underlying reader and the decrypted residue `buf`. -/
structure AESStreamReader where
  start : Nat
  off : Nat
  pos : Nat
  buf : List Nat

/-- `AESStreamReader.readChunk`, translated line by line.  `io.ReadFull`
returns `min(aesFileChunkSize + overhead, remaining)` bytes and advances the
underlying cursor; its error (`nil` on a full read, `EOF` on zero bytes,
`ErrUnexpectedEOF` otherwise) is folded exactly as in the source. -/
def readChunk (G : AEAD) (ctx file : List Nat) (st : AESStreamReader) :
    AESStreamReader × Option StreamErr :=
  let inb := (file.drop st.pos).take (aesFileChunkSize + G.Overhead)
  let n := inb.length
  let st1 := { st with pos := st.pos + n }
  if 0 < n then
    if n ≤ G.Overhead then (st1, some .decryptFailed)
    else
      match G.Open (readerNonce ctx st.off) inb with
      | none => (st1, some .decryptFailed)
      | some dec =>
        let st2 := { st1 with buf := st1.buf ++ dec }
        if n = aesFileChunkSize + G.Overhead then (st2, none)
        else if 0 < st2.buf.length then (st2, none)
        else (st2, some .eof)
  else
    if 0 < st1.buf.length then (st1, none) else (st1, some .eof)

/-- The loop in `AESStreamReader.Read`: copy from the residue, then read the
next chunk, until `k` bytes are gathered or an error stops the loop.  The
fuel bound is justified below: every iteration except the last advances the
underlying cursor, so `file.length + 2` iterations always suffice. -/
def readLoop (G : AEAD) (ctx file : List Nat) (k : Nat) :
    Nat → AESStreamReader → List Nat → List Nat × AESStreamReader × Option StreamErr
  | 0, st, acc => (acc, st, none)
  | fuel + 1, st, acc =>
    let nn := min (k - acc.length) st.buf.length
    let acc2 := acc ++ st.buf.take nn
    let st2 := { st with buf := st.buf.drop nn, off := st.off + nn }
    if acc2.length = k then (acc2, st2, none)
    else
      match readChunk G ctx file st2 with
      | (st3, none) => readLoop G ctx file k fuel st3 acc2
      | (st3, some e) => (acc2, st3, some e)

/-- `AESStreamReader.Read` on a buffer of size `k`: if any bytes were
gathered the error is swallowed. -/
def streamRead (G : AEAD) (ctx file : List Nat) (st : AESStreamReader) (k : Nat) :
    List Nat × AESStreamReader × Option StreamErr :=
  let r := readLoop G ctx file k (file.length + 2) st []
  if 0 < r.1.length then (r.1, r.2.1, none) else r

inductive Whence where
  | seekStart
  | seekCurrent
  | seekEnd
  deriving DecidableEq, Repr

/-- The common tail of `AESStreamReader.Seek` once the target plaintext
offset `newOffsetI` has been computed: reject negative targets, take the
fast path when the target lies inside the residue, otherwise re-seek the
underlying reader to the chunk boundary and decrypt that chunk. -/
def seekToOffset (G : AEAD) (ctx file : List Nat) (st : AESStreamReader)
    (newOffsetI : Int) : Except StreamErr Nat × AESStreamReader :=
  if newOffsetI < 0 then (.error .invalid, st)
  else
    let newOffset := newOffsetI.toNat
    if newOffset = st.off then (.ok st.off, st)
    else if st.off < newOffset ∧ newOffset - st.off < st.buf.length then
      (.ok newOffset, { st with buf := st.buf.drop (newOffset - st.off), off := newOffset })
    else
      let chunkOffset := newOffset % aesFileChunkSize
      let seekTo := st.start + newOffset / aesFileChunkSize * (aesFileChunkSize + G.Overhead)
      let st2 := { st with off := newOffset, pos := seekTo, buf := [] }
      match readChunk G ctx file st2 with
      | (st3, none) =>
        (.ok newOffset,
          if chunkOffset < st3.buf.length then { st3 with buf := st3.buf.drop chunkOffset }
          else { st3 with buf := [] })
      | (st3, some .eof) =>
        (.ok newOffset,
          if chunkOffset < st3.buf.length then { st3 with buf := st3.buf.drop chunkOffset }
          else { st3 with buf := [] })
      | (st3, some e) => (.error e, st3)

/-- `AESStreamReader.Seek`.  For `SeekEnd` the underlying reader is moved to
its end first (`seeker.Seek(0, io.SeekEnd)`), then the decrypted size is
computed from the physical size, exactly as in the source (Go `int64`
division and remainder truncate toward zero: `Int.tdiv`/`Int.tmod`). -/
def streamSeek (G : AEAD) (ctx file : List Nat) (st : AESStreamReader)
    (offset : Int) : Whence → Except StreamErr Nat × AESStreamReader
  | .seekStart => seekToOffset G ctx file st offset
  | .seekCurrent => seekToOffset G ctx file st (st.off + offset)
  | .seekEnd =>
    let st0 := { st with pos := file.length }
    let size : Int := file.length
    let nChunks := (size - st.start).tdiv (aesFileChunkSize + G.Overhead)
    let lastChunkSize0 := (size - st.start).tmod (aesFileChunkSize + G.Overhead)
    let lastChunkSize :=
      if 0 < lastChunkSize0 then lastChunkSize0 - G.Overhead else lastChunkSize0
    if lastChunkSize < 0 then (.error .invalidLastChunk, st0)
    else seekToOffset G ctx file st0 (nChunks * aesFileChunkSize + lastChunkSize + offset)

/-- Reachable reader states over the stream of plaintext `P` written after a
prefix `pre` of the underlying file, cursor aside: `c` chunks of ciphertext
have been consumed and the residue is the decrypted window from `off` to the
consumed chunk boundary. -/
def GoodCore (pre P : List Nat) (c : Nat) (st : AESStreamReader) : Prop :=
  st.start = pre.length ∧
  c ≤ numChunks P.length ∧
  st.off ≤ c * aesFileChunkSize ∧
  st.buf = (P.drop st.off).take (c * aesFileChunkSize - st.off)

/-- Reachable reader states: additionally the underlying cursor sits right
after ciphertext chunk `c`. -/
def Good (G : AEAD) (pre P : List Nat) (c : Nat) (st : AESStreamReader) : Prop :=
  GoodCore pre P c st ∧
  st.pos = pre.length + min (c * aesFileChunkSize) P.length + c * G.Overhead

def GoodSt (G : AEAD) (pre P : List Nat) (st : AESStreamReader) : Prop :=
  ∃ c, Good G pre P c st

/-! ### Writer-side structure lemmas -/

theorem lt_numChunks_iff (c len : Nat) :
    c < numChunks len ↔ c * aesFileChunkSize < len := by
  have hC := aesFileChunkSize_pos
  have hsucc : (c + 1) * aesFileChunkSize = c * aesFileChunkSize + aesFileChunkSize :=
    Nat.succ_mul ..
  unfold numChunks
  constructor
  · intro h
    have h2 : c + 1 ≤ (len + aesFileChunkSize - 1) / aesFileChunkSize := h
    rw [Nat.le_div_iff_mul_le hC] at h2
    omega
  · intro h
    have h2 : (c + 1) * aesFileChunkSize ≤ len + aesFileChunkSize - 1 := by omega
    rw [← Nat.le_div_iff_mul_le hC] at h2
    omega

theorem le_mul_numChunks (len : Nat) : len ≤ numChunks len * aesFileChunkSize := by
  by_contra h
  push_neg at h
  have := (lt_numChunks_iff (numChunks len) len).2 h
  omega

theorem numChunks_succ_chunk (q : Nat) (h : 0 < q) :
    numChunks q = numChunks (q - aesFileChunkSize) + 1 := by
  have hC := aesFileChunkSize_pos
  unfold numChunks
  by_cases hq : q ≤ aesFileChunkSize
  · have h1 : q - aesFileChunkSize = 0 := by omega
    rw [h1]
    have h2 : (q + aesFileChunkSize - 1) / aesFileChunkSize = 1 := by
      apply Nat.div_eq_of_lt_le
      · omega
      · omega
    have h3 : (0 + aesFileChunkSize - 1) / aesFileChunkSize = 0 :=
      Nat.div_eq_of_lt (by omega)
    omega
  · have h1 : q + aesFileChunkSize - 1 = (q - 1) + aesFileChunkSize := by omega
    have h2 : q - aesFileChunkSize + aesFileChunkSize - 1 = q - 1 := by omega
    rw [h1, h2, Nat.add_div_right _ hC]

theorem numChunks_zero : numChunks 0 = 0 := by
  unfold numChunks
  apply Nat.div_eq_of_lt
  have := aesFileChunkSize_pos
  omega

theorem cipherFrom_nil (G : AEAD) (ctx : List Nat) (i : Nat) :
    cipherFrom G ctx i [] = [] := by
  rw [cipherFrom]
  rfl

theorem emitFull_of_lt (G : AEAD) (ctx : List Nat) (st : AESStreamWriter)
    (h : st.buf.length < aesFileChunkSize) : emitFull G ctx st = st := by
  rw [emitFull, dif_neg (by omega)]

theorem cipherFrom_cons (G : AEAD) (ctx : List Nat) (i : Nat) (Q : List Nat)
    (h : Q ≠ []) :
    cipherFrom G ctx i Q =
      G.Seal (gcmNonce ctx (i + 1)) (Q.take aesFileChunkSize) ++
        cipherFrom G ctx (i + 1) (Q.drop aesFileChunkSize) := by
  rw [cipherFrom]
  simp [h]

theorem cipherFrom_length (G : AEAD) (ctx : List Nat)
    (hSeal : ∀ nonce b, (G.Seal nonce b).length = b.length + G.Overhead) :
    ∀ (n : Nat) (Q : List Nat) (i : Nat), Q.length ≤ n →
      (cipherFrom G ctx i Q).length = Q.length + numChunks Q.length * G.Overhead := by
  have hC := aesFileChunkSize_pos
  intro n
  induction n with
  | zero =>
    intro Q i hQ
    have : Q = [] := List.eq_nil_of_length_eq_zero (by omega)
    subst this
    simp [cipherFrom_nil, numChunks_zero]
  | succ n ih =>
    intro Q i hQ
    by_cases hnil : Q = []
    · subst hnil
      simp [cipherFrom_nil, numChunks_zero]
    · have hpos : 0 < Q.length := List.length_pos.2 hnil
      rw [cipherFrom_cons G ctx i Q hnil]
      have hrec := ih (Q.drop aesFileChunkSize) (i + 1) (by simp; omega)
      rw [List.length_append, hSeal, hrec]
      simp only [List.length_take, List.length_drop]
      rw [numChunks_succ_chunk Q.length hpos]
      have hmin : min aesFileChunkSize Q.length + (Q.length - aesFileChunkSize)
          = Q.length := by omega
      ring_nf
      omega

theorem cipherFrom_drop_chunk (G : AEAD) (ctx : List Nat)
    (hSeal : ∀ nonce b, (G.Seal nonce b).length = b.length + G.Overhead)
    (i : Nat) (Q : List Nat) :
    (cipherFrom G ctx i Q).drop (aesFileChunkSize + G.Overhead) =
      cipherFrom G ctx (i + 1) (Q.drop aesFileChunkSize) := by
  by_cases hnil : Q = []
  · subst hnil
    simp [cipherFrom_nil]
  · rw [cipherFrom_cons G ctx i Q hnil, List.drop_append_eq_append_drop]
    have hlen : (G.Seal (gcmNonce ctx (i + 1)) (Q.take aesFileChunkSize)).length
        = min aesFileChunkSize Q.length + G.Overhead := by
      rw [hSeal]
      simp
    by_cases hge : aesFileChunkSize ≤ Q.length
    · have h1 : (G.Seal (gcmNonce ctx (i + 1)) (Q.take aesFileChunkSize)).drop
          (aesFileChunkSize + G.Overhead) = [] := by
        apply List.drop_eq_nil_of_le
        omega
      have h2 : aesFileChunkSize + G.Overhead
          - (G.Seal (gcmNonce ctx (i + 1)) (Q.take aesFileChunkSize)).length = 0 := by
        omega
      rw [h1, h2]
      simp
    · have hqc : Q.drop aesFileChunkSize = [] := List.drop_eq_nil_of_le (by omega)
      rw [hqc, cipherFrom_nil]
      have h1 : (G.Seal (gcmNonce ctx (i + 1)) (Q.take aesFileChunkSize)).drop
          (aesFileChunkSize + G.Overhead) = [] := by
        apply List.drop_eq_nil_of_le
        omega
      rw [h1]
      simp

theorem cipherFrom_drop_mul (G : AEAD) (ctx : List Nat)
    (hSeal : ∀ nonce b, (G.Seal nonce b).length = b.length + G.Overhead)
    (j : Nat) (i : Nat) (Q : List Nat) :
    (cipherFrom G ctx i Q).drop (j * (aesFileChunkSize + G.Overhead)) =
      cipherFrom G ctx (i + j) (Q.drop (j * aesFileChunkSize)) := by
  induction j generalizing i Q with
  | zero => simp
  | succ j ih =>
    have h1 : (j + 1) * (aesFileChunkSize + G.Overhead)
        = (aesFileChunkSize + G.Overhead) + j * (aesFileChunkSize + G.Overhead) := by
      ring
    rw [h1, ← List.drop_drop, cipherFrom_drop_chunk G ctx hSeal, ih]
    have h2 : (Q.drop aesFileChunkSize).drop (j * aesFileChunkSize)
        = Q.drop ((j + 1) * aesFileChunkSize) := by
      rw [List.drop_drop]
      congr 1
      ring
    rw [h2]
    congr 1
    omega

theorem cipherFrom_take_chunk (G : AEAD) (ctx : List Nat)
    (hSeal : ∀ nonce b, (G.Seal nonce b).length = b.length + G.Overhead)
    (i : Nat) (Q : List Nat) (h : Q ≠ []) :
    (cipherFrom G ctx i Q).take (aesFileChunkSize + G.Overhead) =
      G.Seal (gcmNonce ctx (i + 1)) (Q.take aesFileChunkSize) := by
  rw [cipherFrom_cons G ctx i Q h, List.take_append_eq_append_take]
  have hlen : (G.Seal (gcmNonce ctx (i + 1)) (Q.take aesFileChunkSize)).length
      = min aesFileChunkSize Q.length + G.Overhead := by
    rw [hSeal]
    simp
  have h1 : (G.Seal (gcmNonce ctx (i + 1)) (Q.take aesFileChunkSize)).take
      (aesFileChunkSize + G.Overhead) = G.Seal (gcmNonce ctx (i + 1))
      (Q.take aesFileChunkSize) := by
    apply List.take_of_length_le
    omega
  rw [h1]
  by_cases hge : aesFileChunkSize ≤ Q.length
  · have h2 : aesFileChunkSize + G.Overhead
        - (G.Seal (gcmNonce ctx (i + 1)) (Q.take aesFileChunkSize)).length = 0 := by
      omega
    rw [h2]
    simp
  · have hqc : Q.drop aesFileChunkSize = [] := List.drop_eq_nil_of_le (by omega)
    rw [hqc, cipherFrom_nil]
    simp

theorem emitClose_spec (G : AEAD) (ctx : List Nat) :
    ∀ (n : Nat) (st : AESStreamWriter), st.buf.length ≤ n →
      (writerClose G ctx (emitFull G ctx st)).out =
        st.out ++ cipherFrom G ctx st.c st.buf := by
  have hC := aesFileChunkSize_pos
  intro n
  induction n with
  | zero =>
    intro st hst
    have hnil : st.buf = [] := List.eq_nil_of_length_eq_zero (by omega)
    rw [emitFull_of_lt G ctx st (by omega), writerClose, if_neg (by omega)]
    rw [hnil, cipherFrom_nil]
    simp
  | succ n ih =>
    intro st hst
    by_cases hge : aesFileChunkSize ≤ st.buf.length
    · rw [emitFull, dif_pos hge]
      rw [ih _ (by simp; omega)]
      have hnil : st.buf ≠ [] := by
        intro hcontra
        rw [hcontra] at hge
        simp at hge
        omega
      rw [cipherFrom_cons G ctx st.c st.buf hnil]
      simp [writeChunkW]
    · rw [emitFull_of_lt G ctx st (by omega)]
      rw [writerClose]
      by_cases hpos : 0 < st.buf.length
      · rw [if_pos hpos]
        have hnil : st.buf ≠ [] := by
          intro hcontra
          rw [hcontra] at hpos
          simp at hpos
        rw [cipherFrom_cons G ctx st.c st.buf hnil]
        have htk : st.buf.take aesFileChunkSize = st.buf :=
          List.take_of_length_le (by omega)
        have hdr : st.buf.drop aesFileChunkSize = [] :=
          List.drop_eq_nil_of_le (by omega)
        rw [htk, hdr, cipherFrom_nil]
        simp [writeChunkW]
      · rw [if_neg hpos]
        have hnil : st.buf = [] := List.eq_nil_of_length_eq_zero (by omega)
        simp [hnil, cipherFrom_nil]

theorem streamCipher_eq (G : AEAD) (ctx P : List Nat) :
    streamCipher G ctx P = cipherFrom G ctx 0 P := by
  unfold streamCipher writerWrite
  rw [emitClose_spec G ctx (P.length) _ (by simp)]
  simp

theorem streamCipher_length (G : AEAD) (ctx P : List Nat)
    (hSeal : ∀ nonce b, (G.Seal nonce b).length = b.length + G.Overhead) :
    (streamCipher G ctx P).length = P.length + numChunks P.length * G.Overhead := by
  rw [streamCipher_eq]
  exact cipherFrom_length G ctx hSeal P.length P 0 le_rfl

/-! ### Reader-side lemmas -/

section ReaderLemmas

variable (G : AEAD) (ctx pre P : List Nat)

/-- Dropping the file up to the start of ciphertext chunk `j` leaves the
ciphertext of the remaining chunks. -/
theorem file_drop_at
    (hSeal : ∀ nonce b, (G.Seal nonce b).length = b.length + G.Overhead) (j : Nat) :
    (pre ++ cipherFrom G ctx 0 P).drop
        (pre.length + j * aesFileChunkSize + j * G.Overhead) =
      cipherFrom G ctx j (P.drop (j * aesFileChunkSize)) := by
  rw [List.drop_append_eq_append_drop]
  have h1 : pre.drop (pre.length + j * aesFileChunkSize + j * G.Overhead) = [] :=
    List.drop_eq_nil_of_le (by omega)
  rw [h1, List.nil_append]
  have h2 : pre.length + j * aesFileChunkSize + j * G.Overhead - pre.length
      = j * (aesFileChunkSize + G.Overhead) := by
    have := Nat.mul_add j aesFileChunkSize G.Overhead
    omega
  rw [h2, cipherFrom_drop_mul G ctx hSeal j 0 P]
  norm_num

/-- `readChunk` at the boundary of chunk `j`, when chunk `j` exists:
it decrypts the chunk, appends it to the residue and reports no error. -/
theorem readChunk_more
    (hSeal : ∀ nonce b, (G.Seal nonce b).length = b.length + G.Overhead)
    (hOpen : ∀ nonce b, G.Open nonce (G.Seal nonce b) = some b)
    (j : Nat) (st : AESStreamReader)
    (hpos : st.pos = pre.length + j * aesFileChunkSize + j * G.Overhead)
    (hoffdiv : st.off / aesFileChunkSize = j)
    (hjn : j * aesFileChunkSize < P.length) :
    readChunk G ctx (pre ++ cipherFrom G ctx 0 P) st =
      ({ st with
          pos := st.pos +
            (min aesFileChunkSize (P.length - j * aesFileChunkSize) + G.Overhead),
          buf := st.buf ++ (P.drop (j * aesFileChunkSize)).take aesFileChunkSize },
        none) := by
  have hC := aesFileChunkSize_pos
  have hdropQ : (pre ++ cipherFrom G ctx 0 P).drop st.pos
      = cipherFrom G ctx j (P.drop (j * aesFileChunkSize)) := by
    rw [hpos]
    exact file_drop_at G ctx pre P hSeal j
  have hQnil : P.drop (j * aesFileChunkSize) ≠ [] := by
    intro hcontra
    have := congrArg List.length hcontra
    simp at this
    omega
  have htk : (cipherFrom G ctx j (P.drop (j * aesFileChunkSize))).take
      (aesFileChunkSize + G.Overhead)
      = G.Seal (gcmNonce ctx (j + 1))
          ((P.drop (j * aesFileChunkSize)).take aesFileChunkSize) :=
    cipherFrom_take_chunk G ctx hSeal j _ hQnil
  have hsl : (G.Seal (gcmNonce ctx (j + 1))
      ((P.drop (j * aesFileChunkSize)).take aesFileChunkSize)).length
      = min aesFileChunkSize (P.length - j * aesFileChunkSize) + G.Overhead := by
    rw [hSeal]
    simp
  have hnonce : readerNonce ctx st.off = gcmNonce ctx (j + 1) := by
    unfold readerNonce
    rw [hoffdiv]
  unfold readChunk
  simp only [hdropQ, htk, hnonce, hsl, hOpen]
  rw [if_pos (by omega), if_neg (by omega)]
  by_cases hfull : min aesFileChunkSize (P.length - j * aesFileChunkSize) + G.Overhead
      = aesFileChunkSize + G.Overhead
  · rw [if_pos hfull]
  · rw [if_neg hfull, if_pos (by simp; omega)]

/-- `readChunk` past the end of the ciphertext with an empty residue:
it reads nothing and reports `EOF`. -/
theorem readChunk_empty (st : AESStreamReader)
    (hdrop : (pre ++ cipherFrom G ctx 0 P).drop st.pos = [])
    (hbuf : st.buf = []) :
    readChunk G ctx (pre ++ cipherFrom G ctx 0 P) st = (st, some .eof) := by
  unfold readChunk
  rw [hdrop]
  simp [hbuf]
  rw [← hbuf]

end ReaderLemmas

/-! ### Read loop specification -/

section ReadSpec

variable (G : AEAD) (ctx pre P : List Nat)

theorem drop_take_shift (Q : List Nat) (off a b : Nat) :
    ((Q.drop off).take a).drop b = (Q.drop (off + b)).take (a - b) := by
  rw [List.drop_take, List.drop_drop, Nat.add_comm]

theorem take_of_take (Q : List Nat) (off a b : Nat) (h : b ≤ a) :
    ((Q.drop off).take a).take b = (Q.drop off).take b := by
  rw [List.take_take]
  congr 1
  omega

theorem readLoop_spec
    (hSeal : ∀ nonce b, (G.Seal nonce b).length = b.length + G.Overhead)
    (hOpen : ∀ nonce b, G.Open nonce (G.Seal nonce b) = some b) :
    ∀ (fuel c : Nat) (st : AESStreamReader) (acc : List Nat) (k : Nat),
      Good G pre P c st →
      acc.length ≤ k →
      numChunks P.length - c + 1 ≤ fuel →
      ∃ c2 st2 e,
        readLoop G ctx (pre ++ cipherFrom G ctx 0 P) k fuel st acc =
          (acc ++ (P.drop st.off).take (k - acc.length), st2, e) ∧
        Good G pre P c2 st2 ∧
        st2.off = st.off + min (k - acc.length) (P.length - st.off) := by
  intro fuel
  induction fuel with
  | zero =>
    intro c st acc k hg hacc hfuel
    omega
  | succ fuel ih =>
    intro c st acc k hg hacc hfuel
    obtain ⟨⟨hstart, hcm, hoffc, hbuf⟩, hpos⟩ := hg
    have hC := aesFileChunkSize_pos
    have hbufLen : st.buf.length
        = min (c * aesFileChunkSize - st.off) (P.length - st.off) := by
      rw [hbuf]
      simp
    rw [readLoop]
    have hlen : (acc ++ st.buf.take (min (k - acc.length) st.buf.length)).length
        = acc.length + min (k - acc.length) st.buf.length := by
      simp
    by_cases hdone :
        (acc ++ st.buf.take (min (k - acc.length) st.buf.length)).length = k
    · -- the residue already holds the k-th byte: copy and return
      rw [if_pos hdone]
      have hkb : k - acc.length ≤ st.buf.length := by omega
      have hoffm : min (k - acc.length) st.buf.length = k - acc.length := by omega
      have htk : st.buf.take (min (k - acc.length) st.buf.length)
          = (P.drop st.off).take (k - acc.length) := by
        rw [hoffm, hbuf, take_of_take P st.off _ _ (by omega)]
      refine ⟨c,
        { st with buf := st.buf.drop (min (k - acc.length) st.buf.length),
                  off := st.off + min (k - acc.length) st.buf.length },
        none, by rw [htk], ⟨⟨hstart, hcm, ?_, ?_⟩, ?_⟩, ?_⟩
      · show st.off + min (k - acc.length) st.buf.length ≤ c * aesFileChunkSize
        omega
      · show st.buf.drop (min (k - acc.length) st.buf.length)
          = (P.drop (st.off + min (k - acc.length) st.buf.length)).take
              (c * aesFileChunkSize - (st.off + min (k - acc.length) st.buf.length))
        rw [hoffm, hbuf, drop_take_shift]
        congr 1
        omega
      · exact hpos
      · show st.off + min (k - acc.length) st.buf.length
          = st.off + min (k - acc.length) (P.length - st.off)
        omega
    · rw [if_neg hdone]
      have hnnB : min (k - acc.length) st.buf.length = st.buf.length := by omega
      have hlt : acc.length + st.buf.length < k := by omega
      have htkB : st.buf.take (min (k - acc.length) st.buf.length) = st.buf := by
        rw [hnnB]
        exact List.take_length ..
      have hstEq : ({ st with
            buf := st.buf.drop (min (k - acc.length) st.buf.length),
            off := st.off + min (k - acc.length) st.buf.length } : AESStreamReader)
          = { st with buf := [], off := st.off + st.buf.length } := by
        rw [hnnB, List.drop_length]
      rw [htkB, hstEq]
      by_cases hcm2 : c < numChunks P.length
      · -- a further chunk exists: read it and recurse
        have hclt : c * aesFileChunkSize < P.length := (lt_numChunks_iff ..).1 hcm2
        have hoff2 : st.off + st.buf.length = c * aesFileChunkSize := by
          omega
        have hsucc : (c + 1) * aesFileChunkSize
            = c * aesFileChunkSize + aesFileChunkSize := Nat.succ_mul ..
        have hminn : min (c * aesFileChunkSize) P.length = c * aesFileChunkSize := by
          omega
        have hrc := readChunk_more G ctx pre P hSeal hOpen c
          { st with buf := [], off := st.off + st.buf.length }
          (by
            show st.pos = pre.length + c * aesFileChunkSize + c * G.Overhead
            rw [hpos, hminn])
          (by
            show (st.off + st.buf.length) / aesFileChunkSize = c
            rw [hoff2]
            exact Nat.mul_div_cancel c hC)
          hclt
        simp only [hrc]
        have hih := ih (c + 1)
          { start := st.start, off := st.off + st.buf.length,
            pos := st.pos +
              (min aesFileChunkSize (P.length - c * aesFileChunkSize) + G.Overhead),
            buf := [] ++ (P.drop (c * aesFileChunkSize)).take aesFileChunkSize }
          (acc ++ st.buf) k
          ⟨⟨hstart, by omega, by show st.off + st.buf.length ≤ _; omega, by
            show [] ++ (P.drop (c * aesFileChunkSize)).take aesFileChunkSize
              = (P.drop (st.off + st.buf.length)).take
                  ((c + 1) * aesFileChunkSize - (st.off + st.buf.length))
            rw [List.nil_append, hoff2,
              show (c + 1) * aesFileChunkSize - c * aesFileChunkSize
                = aesFileChunkSize from by omega]⟩, by
            show st.pos +
                (min aesFileChunkSize (P.length - c * aesFileChunkSize) + G.Overhead)
              = pre.length + min ((c + 1) * aesFileChunkSize) P.length +
                  (c + 1) * G.Overhead
            rw [hpos]
            have hmadd : (c + 1) * G.Overhead = c * G.Overhead + G.Overhead :=
              Nat.succ_mul ..
            omega⟩
          (by simp; omega) (by omega)
        obtain ⟨c4, st4, e, hloop, hgood4, hoff4⟩ := hih
        refine ⟨c4, st4, e, ?_, hgood4, ?_⟩
        · rw [hloop]
          show (acc ++ st.buf ++
              (P.drop (st.off + st.buf.length)).take (k - (acc ++ st.buf).length),
              st4, e)
            = (acc ++ (P.drop st.off).take (k - acc.length), st4, e)
          have e2 : (acc ++ st.buf).length = acc.length + st.buf.length := by simp
          rw [e2, hoff2, List.append_assoc]
          have hdd : (P.drop st.off).drop (c * aesFileChunkSize - st.off)
              = P.drop (c * aesFileChunkSize) := by
            rw [List.drop_drop,
              show st.off + (c * aesFileChunkSize - st.off)
                = c * aesFileChunkSize from by omega]
          rw [show k - acc.length
              = (c * aesFileChunkSize - st.off) + (k - (acc.length + st.buf.length))
              from by omega,
            List.take_add, hdd, ← hbuf]
        · rw [hoff4]
          show st.off + st.buf.length +
              min (k - (acc ++ st.buf).length)
                (P.length - (st.off + st.buf.length))
            = st.off + min (k - acc.length) (P.length - st.off)
          rw [show (acc ++ st.buf).length = acc.length + st.buf.length from by simp]
          omega
      · -- no further chunk: EOF
        have hceq : c = numChunks P.length := by omega
        have hmn : P.length ≤ c * aesFileChunkSize := by
          rw [hceq]
          exact le_mul_numChunks ..
        have hfl : (pre ++ cipherFrom G ctx 0 P).length
            = pre.length + P.length + numChunks P.length * G.Overhead := by
          simp [cipherFrom_length G ctx hSeal P.length P 0 le_rfl]
          omega
        have hrc := readChunk_empty G ctx pre P
          { st with buf := [], off := st.off + st.buf.length }
          (by
            apply List.drop_eq_nil_of_le
            rw [hfl]
            show pre.length + P.length + numChunks P.length * G.Overhead ≤ st.pos
            rw [hpos]
            have hminn : min (c * aesFileChunkSize) P.length = P.length := by omega
            have hco : c * G.Overhead = numChunks P.length * G.Overhead := by
              rw [hceq]
            omega)
          rfl
        simp only [hrc]
        have hbl : st.buf.length = P.length - st.off := by
          omega
        have h1 : st.buf = P.drop st.off := by
          rw [hbuf]
          apply List.take_of_length_le
          simp only [List.length_drop]
          omega
        have h2 : (P.drop st.off).take (k - acc.length) = P.drop st.off := by
          apply List.take_of_length_le
          simp only [List.length_drop]
          omega
        refine ⟨c, { st with buf := [], off := st.off + st.buf.length },
          some .eof, ?_, ⟨⟨hstart, hcm, ?_, ?_⟩, ?_⟩, ?_⟩
        · rw [h2, ← h1]
        · show st.off + st.buf.length ≤ c * aesFileChunkSize
          omega
        · show ([] : List Nat)
            = (P.drop (st.off + st.buf.length)).take
                (c * aesFileChunkSize - (st.off + st.buf.length))
          have : P.drop (st.off + st.buf.length) = [] := by
            apply List.drop_eq_nil_of_le
            omega
          rw [this, List.take_nil]
        · exact hpos
        · show st.off + st.buf.length = st.off + min (k - acc.length) (P.length - st.off)
          omega

theorem numChunks_le_self (len : Nat) : numChunks len ≤ len := by
  have hC := aesFileChunkSize_pos
  by_cases h : len = 0
  · rw [h, numChunks_zero]
  · by_contra h2
    push_neg at h2
    have h3 := (lt_numChunks_iff len len).1 h2
    have h4 : len ≤ len * aesFileChunkSize := Nat.le_mul_of_pos_right len hC
    omega

/-- `AESStreamReader.Read` from a reachable state returns exactly the `k`
plaintext bytes at the current offset (truncated at end of stream) and
leaves the reader in a reachable state just past them. -/
theorem streamRead_spec
    (hSeal : ∀ nonce b, (G.Seal nonce b).length = b.length + G.Overhead)
    (hOpen : ∀ nonce b, G.Open nonce (G.Seal nonce b) = some b)
    (c : Nat) (st : AESStreamReader) (k : Nat)
    (hg : Good G pre P c st) :
    ∃ c2 st2 e,
      streamRead G ctx (pre ++ cipherFrom G ctx 0 P) st k =
        ((P.drop st.off).take k, st2, e) ∧
      Good G pre P c2 st2 ∧
      st2.off = st.off + min k (P.length - st.off) := by
  have hC := aesFileChunkSize_pos
  have hfuel : numChunks P.length - c + 1
      ≤ (pre ++ cipherFrom G ctx 0 P).length + 2 := by
    have h1 := numChunks_le_self P.length
    have h2 : (pre ++ cipherFrom G ctx 0 P).length
        = pre.length + (cipherFrom G ctx 0 P).length := by
      simp
    have h3 := cipherFrom_length G ctx hSeal P.length P 0 le_rfl
    omega
  obtain ⟨c2, st2, e, hloop, hg2, hoff2⟩ :=
    readLoop_spec G ctx pre P hSeal hOpen _ c st [] k hg (by simp) hfuel
  have hloop2 : readLoop G ctx (pre ++ cipherFrom G ctx 0 P) k
      ((pre ++ cipherFrom G ctx 0 P).length + 2) st []
      = ((P.drop st.off).take k, st2, e) := hloop
  unfold streamRead
  rw [hloop2]
  by_cases hlen : 0 < ((P.drop st.off).take k).length
  · rw [if_pos hlen]
    exact ⟨c2, st2, none, rfl, hg2, hoff2⟩
  · rw [if_neg hlen]
    exact ⟨c2, st2, e, rfl, hg2, hoff2⟩

/-- `AESStreamReader.Seek` common tail from a reachable state, for a target
plaintext offset `t ≤ P.length`: it returns `t` and leaves the reader in a
reachable state at offset `t` (fast path and slow path alike). -/
theorem seekToOffset_spec
    (hSeal : ∀ nonce b, (G.Seal nonce b).length = b.length + G.Overhead)
    (hOpen : ∀ nonce b, G.Open nonce (G.Seal nonce b) = some b)
    (c : Nat) (st : AESStreamReader) (t : Nat)
    (hg : Good G pre P c st) (ht : t ≤ P.length) :
    ∃ c2 st2,
      seekToOffset G ctx (pre ++ cipherFrom G ctx 0 P) st (t : Int) =
        (.ok t, st2) ∧
      Good G pre P c2 st2 ∧ st2.off = t := by
  obtain ⟨⟨hstart, hcm, hoffc, hbuf⟩, hpos⟩ := hg
  have hC := aesFileChunkSize_pos
  have hbufLen : st.buf.length
      = min (c * aesFileChunkSize - st.off) (P.length - st.off) := by
    rw [hbuf]
    simp
  unfold seekToOffset
  rw [if_neg (not_lt.2 (Int.natCast_nonneg t)), Int.toNat_natCast]
  by_cases h1 : t = st.off
  · rw [if_pos h1]
    exact ⟨c, st, by rw [h1], ⟨⟨hstart, hcm, hoffc, hbuf⟩, hpos⟩, h1.symm⟩
  · rw [if_neg h1]
    by_cases h2 : st.off < t ∧ t - st.off < st.buf.length
    · -- fast path: the target lies inside the residue
      rw [if_pos h2]
      refine ⟨c, _, rfl, ⟨⟨hstart, hcm, ?_, ?_⟩, hpos⟩, rfl⟩
      · show t ≤ c * aesFileChunkSize
        omega
      · show st.buf.drop (t - st.off)
          = (P.drop t).take (c * aesFileChunkSize - t)
        rw [hbuf, drop_take_shift,
          show st.off + (t - st.off) = t from by omega,
          show c * aesFileChunkSize - st.off - (t - st.off)
            = c * aesFileChunkSize - t from by omega]
    · -- slow path: re-seek to the chunk boundary and decrypt that chunk
      rw [if_neg h2, hstart]
      have hdm : t / aesFileChunkSize * aesFileChunkSize + t % aesFileChunkSize
          = t := by
        have hx := Nat.div_add_mod t aesFileChunkSize
        have hy : aesFileChunkSize * (t / aesFileChunkSize)
            = t / aesFileChunkSize * aesFileChunkSize := Nat.mul_comm ..
        omega
      have hjle : t / aesFileChunkSize * aesFileChunkSize ≤ t :=
        Nat.div_mul_le_self t aesFileChunkSize
      have hmul : t / aesFileChunkSize * (aesFileChunkSize + G.Overhead)
          = t / aesFileChunkSize * aesFileChunkSize +
            t / aesFileChunkSize * G.Overhead := Nat.mul_add ..
      by_cases h3 : t / aesFileChunkSize * aesFileChunkSize < P.length
      · -- the target chunk exists
        have hrc := readChunk_more G ctx pre P hSeal hOpen (t / aesFileChunkSize)
          { start := pre.length, off := t, pos := pre.length + t / aesFileChunkSize * (aesFileChunkSize + G.Overhead), buf := [] }
          (by
            show pre.length + t / aesFileChunkSize * (aesFileChunkSize + G.Overhead)
              = pre.length + t / aesFileChunkSize * aesFileChunkSize +
                t / aesFileChunkSize * G.Overhead
            omega)
          rfl h3
        simp only [hrc, List.nil_append]
        have hsucc : (t / aesFileChunkSize + 1) * aesFileChunkSize
            = t / aesFileChunkSize * aesFileChunkSize + aesFileChunkSize :=
          Nat.succ_mul ..
        have hmlt : t % aesFileChunkSize < aesFileChunkSize := Nat.mod_lt t hC
        have hjm : t / aesFileChunkSize + 1 ≤ numChunks P.length := by
          have := (lt_numChunks_iff (t / aesFileChunkSize) P.length).2 h3
          omega
        have hblen : ((P.drop (t / aesFileChunkSize * aesFileChunkSize)).take
              aesFileChunkSize).length
            = min aesFileChunkSize
                (P.length - t / aesFileChunkSize * aesFileChunkSize) := by
          simp
        by_cases h4 : t % aesFileChunkSize <
            ((P.drop (t / aesFileChunkSize * aesFileChunkSize)).take
              aesFileChunkSize).length
        · rw [if_pos h4]
          refine ⟨t / aesFileChunkSize + 1, _, rfl, ⟨⟨rfl, hjm, ?_, ?_⟩, ?_⟩, rfl⟩
          · show t ≤ (t / aesFileChunkSize + 1) * aesFileChunkSize
            omega
          · show ((P.drop (t / aesFileChunkSize * aesFileChunkSize)).take
                aesFileChunkSize).drop (t % aesFileChunkSize)
              = (P.drop t).take
                  ((t / aesFileChunkSize + 1) * aesFileChunkSize - t)
            rw [drop_take_shift,
              show t / aesFileChunkSize * aesFileChunkSize + t % aesFileChunkSize
                = t from hdm,
              show aesFileChunkSize - t % aesFileChunkSize
                = (t / aesFileChunkSize + 1) * aesFileChunkSize - t from by omega]
          · show pre.length +
                t / aesFileChunkSize * (aesFileChunkSize + G.Overhead) +
                (min aesFileChunkSize
                  (P.length - t / aesFileChunkSize * aesFileChunkSize) +
                  G.Overhead)
              = pre.length +
                min ((t / aesFileChunkSize + 1) * aesFileChunkSize) P.length +
                (t / aesFileChunkSize + 1) * G.Overhead
            have hmadd : (t / aesFileChunkSize + 1) * G.Overhead
                = t / aesFileChunkSize * G.Overhead + G.Overhead := Nat.succ_mul ..
            omega
        · rw [if_neg h4]
          rw [hblen] at h4
          have htn : t = P.length := by
            omega
          refine ⟨t / aesFileChunkSize + 1, _, rfl, ⟨⟨rfl, hjm, ?_, ?_⟩, ?_⟩, rfl⟩
          · show t ≤ (t / aesFileChunkSize + 1) * aesFileChunkSize
            omega
          · show ([] : List Nat)
              = (P.drop t).take ((t / aesFileChunkSize + 1) * aesFileChunkSize - t)
            rw [htn, List.drop_length, List.take_nil]
          · show pre.length +
                t / aesFileChunkSize * (aesFileChunkSize + G.Overhead) +
                (min aesFileChunkSize
                  (P.length - t / aesFileChunkSize * aesFileChunkSize) +
                  G.Overhead)
              = pre.length +
                min ((t / aesFileChunkSize + 1) * aesFileChunkSize) P.length +
                (t / aesFileChunkSize + 1) * G.Overhead
            have hmadd : (t / aesFileChunkSize + 1) * G.Overhead
                = t / aesFileChunkSize * G.Overhead + G.Overhead := Nat.succ_mul ..
            omega
      · -- the target is exactly the end of a chunk-aligned stream
        have htn : t = P.length ∧ t / aesFileChunkSize * aesFileChunkSize = t := by
          omega
        have hj : numChunks P.length = t / aesFileChunkSize := by
          have h5 : numChunks (t / aesFileChunkSize * aesFileChunkSize)
              = t / aesFileChunkSize := by
            unfold numChunks
            rw [show t / aesFileChunkSize * aesFileChunkSize + aesFileChunkSize - 1
                = aesFileChunkSize * (t / aesFileChunkSize) + (aesFileChunkSize - 1)
                from by
                  have := Nat.mul_comm (t / aesFileChunkSize) aesFileChunkSize
                  omega,
              Nat.mul_add_div hC,
              Nat.div_eq_of_lt
                (show aesFileChunkSize - 1 < aesFileChunkSize from by omega)]
            omega
          rw [htn.2] at h5
          rw [← htn.1]
          exact h5
        have hflen : (cipherFrom G ctx 0 P).length
            = P.length + numChunks P.length * G.Overhead :=
          cipherFrom_length G ctx hSeal P.length P 0 le_rfl
        have hrc := readChunk_empty G ctx pre P
          { start := pre.length, off := t, pos := pre.length + t / aesFileChunkSize * (aesFileChunkSize + G.Overhead), buf := [] }
          (by
            apply List.drop_eq_nil_of_le
            show (pre ++ cipherFrom G ctx 0 P).length
              ≤ pre.length + t / aesFileChunkSize * (aesFileChunkSize + G.Overhead)
            rw [List.length_append, hflen]
            have hco : numChunks P.length * G.Overhead
                = t / aesFileChunkSize * G.Overhead := by
              rw [hj]
            omega)
          rfl
        simp only [hrc]
        rw [if_neg (by simp)]
        refine ⟨t / aesFileChunkSize, _, rfl, ⟨⟨rfl, by omega, ?_, ?_⟩, ?_⟩, rfl⟩
        · show t ≤ t / aesFileChunkSize * aesFileChunkSize
          omega
        · show ([] : List Nat)
            = (P.drop t).take (t / aesFileChunkSize * aesFileChunkSize - t)
          rw [htn.1, List.drop_length, List.take_nil]
        · show pre.length + t / aesFileChunkSize * (aesFileChunkSize + G.Overhead)
            = pre.length +
              min (t / aesFileChunkSize * aesFileChunkSize) P.length +
              t / aesFileChunkSize * G.Overhead
          omega

/-- The result value of `seekToOffset` does not depend on the incoming
cursor position: the fast and equal paths never read it, and the slow path
overwrites it. -/
theorem seekToOffset_fst_pos_irrel (G : AEAD) (ctx file : List Nat)
    (st : AESStreamReader) (p : Nat) (nI : Int) :
    (seekToOffset G ctx file { st with pos := p } nI).1
      = (seekToOffset G ctx file st nI).1 := by
  obtain ⟨s0, o0, p0, b0⟩ := st
  show (seekToOffset G ctx file ⟨s0, o0, p, b0⟩ nI).1
    = (seekToOffset G ctx file ⟨s0, o0, p0, b0⟩ nI).1
  simp only [seekToOffset]
  split_ifs <;> rfl

theorem numChunks_eq (n : Nat) :
    numChunks n = n / aesFileChunkSize +
      (if n % aesFileChunkSize = 0 then 0 else 1) := by
  have hC := aesFileChunkSize_pos
  have hdm := Nat.div_add_mod n aesFileChunkSize
  by_cases hr : n % aesFileChunkSize = 0
  · rw [if_pos hr]
    unfold numChunks
    rw [show n + aesFileChunkSize - 1
        = aesFileChunkSize * (n / aesFileChunkSize) + (aesFileChunkSize - 1)
        from by omega,
      Nat.mul_add_div hC,
      Nat.div_eq_of_lt (show aesFileChunkSize - 1 < aesFileChunkSize from by omega)]
  · rw [if_neg hr]
    have hrlt : n % aesFileChunkSize < aesFileChunkSize := Nat.mod_lt n hC
    unfold numChunks
    rw [show n + aesFileChunkSize - 1
        = aesFileChunkSize * (n / aesFileChunkSize + 1) + (n % aesFileChunkSize - 1)
        from by
          have hx : aesFileChunkSize * (n / aesFileChunkSize + 1)
              = aesFileChunkSize * (n / aesFileChunkSize) + aesFileChunkSize :=
            Nat.mul_succ ..
          omega,
      Nat.mul_add_div hC,
      Nat.div_eq_of_lt (show n % aesFileChunkSize - 1 < aesFileChunkSize from by omega)]

section SeekEndArith

variable (G : AEAD)

theorem total_div (n : Nat) :
    (n + numChunks n * G.Overhead) / (aesFileChunkSize + G.Overhead)
      = n / aesFileChunkSize := by
  have hC := aesFileChunkSize_pos
  have hT : 0 < aesFileChunkSize + G.Overhead := by omega
  have hdm := Nat.div_add_mod n aesFileChunkSize
  rw [numChunks_eq]
  by_cases hr : n % aesFileChunkSize = 0
  · rw [if_pos hr]
    have heq : n + (n / aesFileChunkSize + 0) * G.Overhead
        = (n / aesFileChunkSize) * (aesFileChunkSize + G.Overhead) := by
      have h1 : (n / aesFileChunkSize) * (aesFileChunkSize + G.Overhead)
          = n / aesFileChunkSize * aesFileChunkSize +
            n / aesFileChunkSize * G.Overhead := Nat.mul_add ..
      have h2 : (n / aesFileChunkSize + 0) * G.Overhead
          = n / aesFileChunkSize * G.Overhead := by
        rw [Nat.add_zero]
      have h3 : aesFileChunkSize * (n / aesFileChunkSize)
          = n / aesFileChunkSize * aesFileChunkSize := Nat.mul_comm ..
      omega
    rw [heq, Nat.mul_div_cancel _ hT]
  · rw [if_neg hr]
    have hrlt : n % aesFileChunkSize < aesFileChunkSize := Nat.mod_lt n hC
    have heq : n + (n / aesFileChunkSize + 1) * G.Overhead
        = (aesFileChunkSize + G.Overhead) * (n / aesFileChunkSize) +
          (n % aesFileChunkSize + G.Overhead) := by
      have h1 : (aesFileChunkSize + G.Overhead) * (n / aesFileChunkSize)
          = aesFileChunkSize * (n / aesFileChunkSize) +
            G.Overhead * (n / aesFileChunkSize) := Nat.add_mul ..
      have h2 : (n / aesFileChunkSize + 1) * G.Overhead
          = n / aesFileChunkSize * G.Overhead + G.Overhead := Nat.succ_mul ..
      have h3 : G.Overhead * (n / aesFileChunkSize)
          = n / aesFileChunkSize * G.Overhead := Nat.mul_comm ..
      omega
    rw [heq, Nat.mul_add_div hT,
      Nat.div_eq_of_lt
        (show n % aesFileChunkSize + G.Overhead < aesFileChunkSize + G.Overhead
          from by omega)]
    omega

theorem total_mod (n : Nat) :
    (n + numChunks n * G.Overhead) % (aesFileChunkSize + G.Overhead)
      = (if n % aesFileChunkSize = 0 then 0
         else n % aesFileChunkSize + G.Overhead) := by
  have hC := aesFileChunkSize_pos
  have hT : 0 < aesFileChunkSize + G.Overhead := by omega
  have hdm := Nat.div_add_mod n aesFileChunkSize
  rw [numChunks_eq]
  by_cases hr : n % aesFileChunkSize = 0
  · rw [if_pos hr, if_pos hr]
    have heq : n + (n / aesFileChunkSize + 0) * G.Overhead
        = (n / aesFileChunkSize) * (aesFileChunkSize + G.Overhead) := by
      have h1 : (n / aesFileChunkSize) * (aesFileChunkSize + G.Overhead)
          = n / aesFileChunkSize * aesFileChunkSize +
            n / aesFileChunkSize * G.Overhead := Nat.mul_add ..
      have h2 : (n / aesFileChunkSize + 0) * G.Overhead
          = n / aesFileChunkSize * G.Overhead := by
        rw [Nat.add_zero]
      have h3 : aesFileChunkSize * (n / aesFileChunkSize)
          = n / aesFileChunkSize * aesFileChunkSize := Nat.mul_comm ..
      omega
    rw [heq]
    exact Nat.mul_mod_left ..
  · rw [if_neg hr, if_neg hr]
    have hrlt : n % aesFileChunkSize < aesFileChunkSize := Nat.mod_lt n hC
    have heq : n + (n / aesFileChunkSize + 1) * G.Overhead
        = (aesFileChunkSize + G.Overhead) * (n / aesFileChunkSize) +
          (n % aesFileChunkSize + G.Overhead) := by
      have h1 : (aesFileChunkSize + G.Overhead) * (n / aesFileChunkSize)
          = aesFileChunkSize * (n / aesFileChunkSize) +
            G.Overhead * (n / aesFileChunkSize) := Nat.add_mul ..
      have h2 : (n / aesFileChunkSize + 1) * G.Overhead
          = n / aesFileChunkSize * G.Overhead + G.Overhead := Nat.succ_mul ..
      have h3 : G.Overhead * (n / aesFileChunkSize)
          = n / aesFileChunkSize * G.Overhead := Nat.mul_comm ..
      omega
    rw [heq, Nat.mul_add_mod,
      Nat.mod_eq_of_lt
        (show n % aesFileChunkSize + G.Overhead < aesFileChunkSize + G.Overhead
          from by omega)]

end SeekEndArith

end ReadSpec

/-! ### Stream claims -/

/-- A freshly opened stream reader (`StartReader`) is in a reachable state. -/
theorem good_init (G : AEAD) (pre P : List Nat) :
    Good G pre P 0 ⟨pre.length, 0, pre.length, []⟩ := by
  refine ⟨⟨rfl, Nat.zero_le _, Nat.le_refl _, by simp⟩, ?_⟩
  simp

/-- A concrete AEAD model used to evaluate the stream layer at specific
inputs: seal appends a 16-byte tag of zeros, open strips it. -/
def idAEAD : AEAD :=
  { Seal := fun _ b => b ++ List.replicate 16 0
    Open := fun _ c => if 16 ≤ c.length then some (c.take (c.length - 16)) else none
    Overhead := 16 }

theorem idAEAD_seal_length :
    ∀ nonce b, (idAEAD.Seal nonce b).length = b.length + idAEAD.Overhead := by
  intro nonce b
  simp [idAEAD]

theorem idAEAD_open_seal :
    ∀ nonce b, idAEAD.Open nonce (idAEAD.Seal nonce b) = some b := by
  intro nonce b
  simp only [idAEAD]
  rw [if_pos (by simp)]
  have h1 : (b ++ List.replicate 16 0).length - 16 = b.length := by
    simp
  rw [h1, List.take_left]

/-- C3: for every reachable reader state over an encrypted stream of
plaintext `P` (so for both the fast path, when the target lies in the
buffered residue, and the slow path), seeking to `p` and reading `k` bytes
returns exactly the same bytes as seeking to `0`, reading `p + k` bytes and
taking the last `k` of them. -/
theorem seek_then_read_eq_read_from_zero
    (G : AEAD) (ctx pre P : List Nat) (st : AESStreamReader)
    (hSeal : ∀ nonce b, (G.Seal nonce b).length = b.length + G.Overhead)
    (hOpen : ∀ nonce b, G.Open nonce (G.Seal nonce b) = some b)
    (hg : GoodSt G pre P st)
    (p k : Nat) (hpk : p + k ≤ P.length) :
    (streamRead G ctx (pre ++ streamCipher G ctx P)
        (streamSeek G ctx (pre ++ streamCipher G ctx P) st (p : Int) .seekStart).2
        k).1
      =
    ((streamRead G ctx (pre ++ streamCipher G ctx P)
        (streamSeek G ctx (pre ++ streamCipher G ctx P) st (0 : Int) .seekStart).2
        (p + k)).1).drop
      ((streamRead G ctx (pre ++ streamCipher G ctx P)
        (streamSeek G ctx (pre ++ streamCipher G ctx P) st (0 : Int) .seekStart).2
        (p + k)).1.length - k) := by
  obtain ⟨c, hgc⟩ := hg
  rw [streamCipher_eq]
  obtain ⟨c1, st1, hseek1, hg1, hoff1⟩ :=
    seekToOffset_spec G ctx pre P hSeal hOpen c st p hgc (by omega)
  obtain ⟨c0, st0, hseek0, hg0, hoff0⟩ :=
    seekToOffset_spec G ctx pre P hSeal hOpen c st 0 hgc (by omega)
  have hs1 : streamSeek G ctx (pre ++ cipherFrom G ctx 0 P) st (p : Int) .seekStart
      = (.ok p, st1) := by
    simp only [streamSeek]
    exact hseek1
  have hs0 : streamSeek G ctx (pre ++ cipherFrom G ctx 0 P) st (0 : Int) .seekStart
      = (.ok 0, st0) := by
    simp only [streamSeek]
    exact_mod_cast hseek0
  obtain ⟨c1r, st1r, e1, hread1, hgr1, hoffr1⟩ :=
    streamRead_spec G ctx pre P hSeal hOpen c1 st1 k hg1
  obtain ⟨c0r, st0r, e0, hread0, hgr0, hoffr0⟩ :=
    streamRead_spec G ctx pre P hSeal hOpen c0 st0 (p + k) hg0
  simp only [hs1, hs0, hread1, hread0, hoff1, hoff0]
  have hlen0 : (P.take (p + k)).length = p + k := by
    rw [List.length_take]
    omega
  rw [List.drop_zero, hlen0, show p + k - k = p from by omega, List.drop_take]
  congr 1
  omega

/-- Witness for C3 at a concrete input: a fresh reader over the stream of a
5-byte plaintext, seeking to 2 and reading 2. -/
theorem seek_then_read_eq_read_from_zero_witness :
    GoodSt idAEAD [] [10, 11, 12, 13, 14] ⟨0, 0, 0, []⟩ ∧
    2 + 2 ≤ ([10, 11, 12, 13, 14] : List Nat).length ∧
    (streamRead idAEAD [7] ([] ++ streamCipher idAEAD [7] [10, 11, 12, 13, 14])
        (streamSeek idAEAD [7] ([] ++ streamCipher idAEAD [7] [10, 11, 12, 13, 14])
          ⟨0, 0, 0, []⟩ (2 : Int) .seekStart).2 2).1
      =
    ((streamRead idAEAD [7] ([] ++ streamCipher idAEAD [7] [10, 11, 12, 13, 14])
        (streamSeek idAEAD [7] ([] ++ streamCipher idAEAD [7] [10, 11, 12, 13, 14])
          ⟨0, 0, 0, []⟩ (0 : Int) .seekStart).2 (2 + 2)).1).drop
      ((streamRead idAEAD [7] ([] ++ streamCipher idAEAD [7] [10, 11, 12, 13, 14])
        (streamSeek idAEAD [7] ([] ++ streamCipher idAEAD [7] [10, 11, 12, 13, 14])
          ⟨0, 0, 0, []⟩ (0 : Int) .seekStart).2 (2 + 2)).1.length - 2) :=
  ⟨⟨0, good_init idAEAD [] [10, 11, 12, 13, 14]⟩, by decide,
    seek_then_read_eq_read_from_zero idAEAD [7] [] [10, 11, 12, 13, 14]
      ⟨0, 0, 0, []⟩ idAEAD_seal_length idAEAD_open_seal
      ⟨0, good_init idAEAD [] [10, 11, 12, 13, 14]⟩ 2 2 (by decide)⟩

/-- C10: a `Seek` whose computed target plaintext offset is negative
(`SeekStart` with a negative offset, or `SeekCurrent` with a delta larger in
magnitude than the current offset) returns `fs.ErrInvalid` and leaves the
reader state — position and buffered residue — completely unchanged, so a
subsequent read continues where it would have. -/
theorem seek_negative_target_invalid (G : AEAD) (ctx file : List Nat)
    (st : AESStreamReader) :
    (∀ off : Int, off < 0 →
      streamSeek G ctx file st off .seekStart = (.error .invalid, st)) ∧
    (∀ delta : Int, (st.off : Int) + delta < 0 →
      streamSeek G ctx file st delta .seekCurrent = (.error .invalid, st)) := by
  constructor
  · intro off h
    simp only [streamSeek]
    unfold seekToOffset
    rw [if_pos h]
  · intro delta h
    simp only [streamSeek]
    unfold seekToOffset
    rw [if_pos h]

/-- Witness for C10 at a concrete input. -/
theorem seek_negative_target_invalid_witness :
    (-1 : Int) < 0 ∧
    streamSeek idAEAD [] [1, 2, 3] ⟨0, 0, 0, []⟩ (-1) .seekStart
      = (.error .invalid, ⟨0, 0, 0, []⟩) ∧
    ((⟨0, 0, 0, []⟩ : AESStreamReader).off : Int) + (-5) < 0 ∧
    streamSeek idAEAD [] [1, 2, 3] ⟨0, 0, 0, []⟩ (-5) .seekCurrent
      = (.error .invalid, ⟨0, 0, 0, []⟩) :=
  ⟨by decide,
   (seek_negative_target_invalid idAEAD [] [1, 2, 3] ⟨0, 0, 0, []⟩).1 (-1) (by decide),
   by decide,
   (seek_negative_target_invalid idAEAD [] [1, 2, 3] ⟨0, 0, 0, []⟩).2 (-5) (by decide)⟩

/-- C7: the 12-byte nonce for chunk `i` (1-based) is the first 4 bytes of
the caller context followed by the big-endian 64-bit encoding of `i`; the
writer seals chunk `i` (0-based `i-1`) with counter `i`, incrementing by one
per chunk; the reader opens the chunk at offset `(i-1)·chunkSize` with the
same counter; and nonces are never reused across distinct
`(context, chunk)` pairs. -/
theorem gcmNonce_structure :
    (∀ (ctx : List Nat) (i : Nat), 4 ≤ ctx.length →
      gcmNonce ctx i = ctx.take 4 ++ be64 i) ∧
    (∀ (G : AEAD) (ctx P : List Nat) (i : Nat),
      (∀ nonce b, (G.Seal nonce b).length = b.length + G.Overhead) →
      i * aesFileChunkSize < P.length →
      ((streamCipher G ctx P).drop (i * (aesFileChunkSize + G.Overhead))).take
          (aesFileChunkSize + G.Overhead)
        = G.Seal (gcmNonce ctx (i + 1))
            ((P.drop (i * aesFileChunkSize)).take aesFileChunkSize)) ∧
    (∀ (ctx : List Nat) (i : Nat),
      readerNonce ctx (i * aesFileChunkSize) = gcmNonce ctx (i + 1)) ∧
    (∀ (ctx ctx2 : List Nat) (i i2 : Nat),
      i < 2 ^ 64 → i2 < 2 ^ 64 →
      gcmNonce ctx i = gcmNonce ctx2 i2 →
      ctx.take 4 ++ List.replicate (4 - (ctx.take 4).length) 0
        = ctx2.take 4 ++ List.replicate (4 - (ctx2.take 4).length) 0 ∧ i = i2) := by
  refine ⟨?_, ?_, ?_, ?_⟩
  · intro ctx i h
    unfold gcmNonce
    rw [show 4 - (ctx.take 4).length = 0 from by simp; omega,
      List.replicate_zero, List.append_nil]
  · intro G ctx P i hSeal hin
    rw [streamCipher_eq, cipherFrom_drop_mul G ctx hSeal i 0 P]
    have hQnil : P.drop (i * aesFileChunkSize) ≠ [] := by
      intro hcontra
      have := congrArg List.length hcontra
      simp at this
      omega
    have := cipherFrom_take_chunk G ctx hSeal (0 + i) (P.drop (i * aesFileChunkSize))
      hQnil
    rw [this, Nat.zero_add]
  · intro ctx i
    unfold readerNonce
    rw [Nat.mul_div_cancel i aesFileChunkSize_pos]
  · intro ctx ctx2 i i2 h1 h2 heq
    unfold gcmNonce at heq
    have hl1 : (ctx.take 4 ++ List.replicate (4 - (ctx.take 4).length) 0).length
        = 4 := by
      simp only [List.length_append, List.length_take, List.length_replicate]
      omega
    have hl2 : (ctx2.take 4 ++ List.replicate (4 - (ctx2.take 4).length) 0).length
        = 4 := by
      simp only [List.length_append, List.length_take, List.length_replicate]
      omega
    have hpre := List.append_inj_left heq (by rw [hl1, hl2])
    have hsuf := List.append_inj_right heq (by rw [hl1, hl2])
    exact ⟨hpre, be64_inj i i2 h1 h2 hsuf⟩

/-- Witness for C7 at concrete inputs. -/
theorem gcmNonce_structure_witness :
    4 ≤ ([1, 2, 3, 4, 5] : List Nat).length ∧
    gcmNonce [1, 2, 3, 4, 5] 3 = [1, 2, 3, 4, 5].take 4 ++ be64 3 ∧
    (0 : Nat) * aesFileChunkSize < ([21, 22, 23] : List Nat).length ∧
    ((streamCipher idAEAD [9, 9, 9, 9] [21, 22, 23]).drop
        (0 * (aesFileChunkSize + idAEAD.Overhead))).take
        (aesFileChunkSize + idAEAD.Overhead)
      = idAEAD.Seal (gcmNonce [9, 9, 9, 9] (0 + 1))
          (([21, 22, 23] : List Nat).drop (0 * aesFileChunkSize) |>.take
            aesFileChunkSize) ∧
    readerNonce [8] (1 * aesFileChunkSize) = gcmNonce [8] (1 + 1) ∧
    ((7 : Nat) < 2 ^ 64 ∧ (7 : Nat) < 2 ^ 64) ∧
    ([6] : List Nat).take 4 ++ List.replicate (4 - (([6] : List Nat).take 4).length) 0
        = ([6] : List Nat).take 4 ++
            List.replicate (4 - (([6] : List Nat).take 4).length) 0 ∧
    (7 : Nat) = 7 :=
  ⟨by decide,
   gcmNonce_structure.1 [1, 2, 3, 4, 5] 3 (by decide),
   by decide,
   gcmNonce_structure.2.1 idAEAD [9, 9, 9, 9] [21, 22, 23] 0 idAEAD_seal_length
     (by decide),
   gcmNonce_structure.2.2.1 [8] 1,
   ⟨by decide, by decide⟩,
   (gcmNonce_structure.2.2.2 [6] [6] 7 7 (by decide) (by decide) rfl).1,
   (gcmNonce_structure.2.2.2 [6] [6] 7 7 (by decide) (by decide) rfl).2⟩

/-- C6: on a stream written by the stream writer from a plaintext of length
`n`, `Seek(delta, SeekEnd)` returns `n + delta` (so `SeekEnd(0)` returns
exactly `n` and `SeekEnd(-100)` returns `n - 100`): the decrypted size
computed from the physical size via
`nChunks = (size-start)/(chunkSize+overhead)`,
`last = (size-start) mod (chunkSize+overhead)` (minus the overhead when
positive) is exactly `n`. -/
theorem seekEnd_returns_decrypted_size
    (G : AEAD) (ctx pre P : List Nat) (st : AESStreamReader) (c : Nat)
    (hSeal : ∀ nonce b, (G.Seal nonce b).length = b.length + G.Overhead)
    (hOpen : ∀ nonce b, G.Open nonce (G.Seal nonce b) = some b)
    (hg : Good G pre P c st)
    (delta : Int) (h0 : 0 ≤ (P.length : Int) + delta) (h1 : delta ≤ 0) :
    (streamSeek G ctx (pre ++ streamCipher G ctx P) st delta .seekEnd).1
      = .ok ((P.length : Int) + delta).toNat := by
  have hC := aesFileChunkSize_pos
  have hstart : st.start = pre.length := hg.1.1
  have hdm := Nat.div_add_mod P.length aesFileChunkSize
  have hmc : aesFileChunkSize * (P.length / aesFileChunkSize)
      = P.length / aesFileChunkSize * aesFileChunkSize := Nat.mul_comm ..
  rw [streamCipher_eq]
  simp only [streamSeek]
  have hflen : (pre ++ cipherFrom G ctx 0 P).length
      = pre.length + (P.length + numChunks P.length * G.Overhead) := by
    rw [List.length_append, cipherFrom_length G ctx hSeal P.length P 0 le_rfl]
  have hdiff : ((pre ++ cipherFrom G ctx 0 P).length : Int) - (st.start : Int)
      = ((P.length + numChunks P.length * G.Overhead : Nat) : Int) := by
    rw [hflen, hstart]
    push_cast
    ring
  rw [hdiff]
  have hdivisor : (aesFileChunkSize : Int) + (G.Overhead : Int)
      = ((aesFileChunkSize + G.Overhead : Nat) : Int) := by
    push_cast
    ring
  rw [hdivisor]
  rw [show ((P.length + numChunks P.length * G.Overhead : Nat) : Int).tdiv
        ((aesFileChunkSize + G.Overhead : Nat) : Int)
      = (((P.length + numChunks P.length * G.Overhead)
          / (aesFileChunkSize + G.Overhead) : Nat) : Int) from rfl,
    show ((P.length + numChunks P.length * G.Overhead : Nat) : Int).tmod
        ((aesFileChunkSize + G.Overhead : Nat) : Int)
      = (((P.length + numChunks P.length * G.Overhead)
          % (aesFileChunkSize + G.Overhead) : Nat) : Int) from rfl]
  rw [total_div G P.length, total_mod G P.length]
  have htN : ((P.length : Int) + delta).toNat ≤ P.length := by omega
  obtain ⟨c2, st2, hs, hg2, hoff2⟩ :=
    seekToOffset_spec G ctx pre P hSeal hOpen c st
      ((P.length : Int) + delta).toNat hg htN
  by_cases hr : P.length % aesFileChunkSize = 0
  · rw [if_pos hr]
    simp only [Nat.cast_zero]
    rw [if_neg (lt_irrefl (0 : Int)), if_neg (lt_irrefl (0 : Int))]
    have hqC : ((P.length / aesFileChunkSize : Nat) : Int) * (aesFileChunkSize : Int)
        = ((P.length : Nat) : Int) := by
      rw [← Nat.cast_mul]
      congr 1
      omega
    rw [hqC, add_zero,
      show (P.length : Int) + delta
        = ((((P.length : Int) + delta).toNat : Nat) : Int) from
        (Int.toNat_of_nonneg h0).symm,
      seekToOffset_fst_pos_irrel, hs]
    rfl
  · rw [if_neg hr]
    have hpos0 : (0 : Int) < ((P.length % aesFileChunkSize + G.Overhead : Nat) : Int)
        := by
      have : 0 < P.length % aesFileChunkSize + G.Overhead := by omega
      exact_mod_cast this
    rw [if_pos hpos0]
    have hsub : ((P.length % aesFileChunkSize + G.Overhead : Nat) : Int)
        - (G.Overhead : Int) = ((P.length % aesFileChunkSize : Nat) : Int) := by
      push_cast
      ring
    rw [hsub, if_neg (not_lt.2 (Int.natCast_nonneg _))]
    have hqCr : ((P.length / aesFileChunkSize : Nat) : Int) * (aesFileChunkSize : Int)
        + ((P.length % aesFileChunkSize : Nat) : Int) = ((P.length : Nat) : Int) := by
      rw [← Nat.cast_mul, ← Nat.cast_add]
      congr 1
      omega
    rw [hqCr,
      show (P.length : Int) + delta
        = ((((P.length : Int) + delta).toNat : Nat) : Int) from
        (Int.toNat_of_nonneg h0).symm,
      seekToOffset_fst_pos_irrel, hs]
    rfl

/-- Witness for C6: a fresh reader over the stream of a 120-byte plaintext;
`SeekEnd(0)` returns 120 and `SeekEnd(-100)` returns 20. -/
theorem seekEnd_returns_decrypted_size_witness :
    (0 : Int) ≤ ((List.range 120).length : Int) + (-100) ∧
    (streamSeek idAEAD [] ([] ++ streamCipher idAEAD [] (List.range 120))
        ⟨0, 0, 0, []⟩ (-100) .seekEnd).1
      = .ok ((((List.range 120).length : Int) + (-100)).toNat) ∧
    (streamSeek idAEAD [] ([] ++ streamCipher idAEAD [] (List.range 120))
        ⟨0, 0, 0, []⟩ 0 .seekEnd).1
      = .ok ((((List.range 120).length : Int) + 0).toNat) :=
  ⟨by simp,
   seekEnd_returns_decrypted_size idAEAD [] [] (List.range 120) ⟨0, 0, 0, []⟩ 0
     idAEAD_seal_length idAEAD_open_seal (good_init idAEAD [] (List.range 120))
     (-100) (by simp) (by simp),
   seekEnd_returns_decrypted_size idAEAD [] [] (List.range 120) ⟨0, 0, 0, []⟩ 0
     idAEAD_seal_length idAEAD_open_seal (good_init idAEAD [] (List.range 120))
     0 (by simp) (by simp)⟩

/-! ### Container codec (`Storage.writeFile` / `Storage.ReadDataFile` /
`Storage.OpenBlobWrite`)

The object encoders (`encoding/json`, `encoding/gob`, `MarshalBinary`) and
gzip are Go standard-library code; they appear as abstract
encoder/decoder function pairs.  The per-file key machinery
(`NewKey`/`WriteEncryptedKey`/`ReadEncryptedKey`/`DecryptKey`) is modelled
by the wrapped key bytes `W` written to the file and an abstract `unwrap`
from wrapped bytes to the file key AEAD. -/

inductive EncKind where
  | json
  | gob
  | binary
  | raw
  deriving DecidableEq, Repr

/-- `optJSONEncoded = 0x01`, `optGOBEncoded = 0x02`, `optBinaryEncoded = 0x03`,
`optRawBytes = 0x04`. -/
def kindBits : EncKind → Nat
  | .json => 0x01
  | .gob => 0x02
  | .binary => 0x03
  | .raw => 0x04

/-- The flags byte computed by `Storage.writeFile`: the encoding bits from
the object type (`BinaryMarshaler`, then `*[]byte`, then the configured
GOB/JSON default), `optEncrypted|optPadded` when the store has a master
key, and `optCompressed` when the store's compress option is set. -/
def writeFileFlags (kind : EncKind) (hasMasterKey compress : Bool) : Nat :=
  kindBits kind |||
    (if hasMasterKey then 0x10 ||| 0x40 else 0) |||
    (if compress then 0x20 else 0)

/-- The flags byte computed by `Storage.OpenBlobWrite`: raw bytes,
`optEncrypted|optPadded` when the store has a master key. -/
def openBlobWriteFlags (hasMasterKey : Bool) : Nat :=
  0x04 ||| (if hasMasterKey then 0x10 ||| 0x40 else 0)

/-- The header `"KRIN" || flags`. -/
def krinHeader (flags : Nat) : List Nat := [75, 82, 73, 78, flags]

/-- The bytes written by `Storage.writeFile` (via `openWriteStream`):
header, then for an encrypted store the wrapped file key `W` followed by
the AEAD stream of (header again, padding-length + padding, body), else the
body directly; the body is the encoded object, gzip-compressed when the
compress option is set.  `padN`/`padBytes` model the random padding
(`AddPadding` writes a 4-byte big-endian length then that many bytes). -/
def writeFileBytes (G : AEAD) (ctx W : List Nat) (kind : EncKind)
    (hasMasterKey compress : Bool) (padN : Nat) (padBytes : List Nat)
    (gz : List Nat → List Nat) (payload : List Nat) : List Nat :=
  let flags := writeFileFlags kind hasMasterKey compress
  let body := if compress then gz payload else payload
  if hasMasterKey then
    krinHeader flags ++ W ++
      streamCipher G ctx (krinHeader flags ++ (be32 padN ++ padBytes) ++ body)
  else
    krinHeader flags ++ body

inductive ReadErr where
  | ioErr
  | wrongFileType
  | needKey
  | decryptFailed
  | wrongEncHeader
  | invalidPadding
  | seekErr
  | gzipErr
  | decodeErr
  deriving DecidableEq, Repr

/-- The tail of `Storage.ReadDataFile`: conditionally gunzip, then decode
the object. -/
def decodeBodyFn {α : Type} (flags : Nat) (gunzip : List Nat → Option (List Nat))
    (dec : List Nat → Option α) (b : List Nat) : Except ReadErr α :=
  if flags &&& 0x20 ≠ 0 then
    match gunzip b with
    | none => .error .gzipErr
    | some b2 =>
      match dec b2 with
      | none => .error .decodeErr
      | some x => .ok x
  else
    match dec b with
    | none => .error .decodeErr
    | some x => .ok x

/-- `Storage.ReadDataFile`, translated step by step.  The stream reader is
the `AESStreamReader` model above; the decoders consume the entire
remaining stream, modelled by a read of `file.length` bytes (an upper bound
on the plaintext length). -/
def readDataFileBytes {α : Type} (keysize : Nat)
    (unwrap : List Nat → Option AEAD) (hasMasterKey : Bool)
    (gunzip : List Nat → Option (List Nat)) (dec : List Nat → Option α)
    (ctx file : List Nat) : Except ReadErr α :=
  if file.length < 5 then .error .ioErr
  else
    let hdr := file.take 5
    if hdr.take 4 ≠ [75, 82, 73, 78] then .error .wrongFileType
    else
      let flags := hdr.getD 4 0
      if flags &&& 0x10 ≠ 0 ∧ hasMasterKey = false then .error .needKey
      else
        let decodeBody : List Nat → Except ReadErr α :=
          decodeBodyFn flags gunzip dec
        if flags &&& 0x10 ≠ 0 then
          let wrapped := (file.drop 5).take keysize
          if wrapped.length ≠ keysize then .error .decryptFailed
          else
            match unwrap wrapped with
            | none => .error .decryptFailed
            | some G =>
              let st0 : AESStreamReader := ⟨5 + keysize, 0, 5 + keysize, []⟩
              let r1 := streamRead G ctx file st0 5
              if r1.1.length ≠ 5 then .error .ioErr
              else if r1.1 ≠ hdr then .error .wrongEncHeader
              else if flags &&& 0x40 ≠ 0 then
                let r2 := streamRead G ctx file r1.2.1 4
                if r2.1.length ≠ 4 then .error .ioErr
                else
                  let n := beInt32 r2.1
                  if n < 0 then .error .invalidPadding
                  else
                    let s3 := streamSeek G ctx file r2.2.1 n .seekCurrent
                    match s3.1 with
                    | .error _ => .error .seekErr
                    | .ok _ =>
                      let r4 := streamRead G ctx file s3.2 file.length
                      decodeBody r4.1
              else
                let r4 := streamRead G ctx file r1.2.1 file.length
                decodeBody r4.1
        else
          decodeBody (file.drop 5)

theorem flags_and_0x10 (kind : EncKind) (mk comp : Bool) :
    writeFileFlags kind mk comp &&& 0x10 ≠ 0 ↔ mk = true := by
  cases kind <;> cases mk <;> cases comp <;> decide

theorem flags_and_0x40 (kind : EncKind) (mk comp : Bool) :
    writeFileFlags kind mk comp &&& 0x40 ≠ 0 ↔ mk = true := by
  cases kind <;> cases mk <;> cases comp <;> decide

theorem flags_and_0x20 (kind : EncKind) (mk comp : Bool) :
    writeFileFlags kind mk comp &&& 0x20 ≠ 0 ↔ comp = true := by
  cases kind <;> cases mk <;> cases comp <;> decide

/-- Counterexample for C8: with the store's compress option set and no
master key, `writeFile` on a `*[]byte` object writes a flags byte with both
the raw-bytes encoding and the compressed bit set. -/
theorem writeFile_raw_compressed_counterexample :
    ((writeFileBytes idAEAD [] [] .raw false true 0 [] (fun b => b)
        [1, 2, 3]).getD 4 0) &&& 0x20 ≠ 0 ∧
    ((writeFileBytes idAEAD [] [] .raw false true 0 [] (fun b => b)
        [1, 2, 3]).getD 4 0) &&& 0x0F = 0x04 := by
  constructor <;> decide

/-- C8 (amended): `OpenBlobWrite` never sets the compressed bit, and
`writeFile` with the compress option off (the default configuration — `New`
never enables it) never sets the compressed bit either; but when the
compress option is enabled, `writeFile` sets the compressed bit even for
raw-bytes objects. -/
theorem raw_bytes_not_compressed_amended :
    (∀ mk : Bool, openBlobWriteFlags mk &&& 0x20 = 0) ∧
    (∀ (kind : EncKind) (mk : Bool), writeFileFlags kind mk false &&& 0x20 = 0) := by
  constructor
  · intro mk
    cases mk <;> decide
  · intro kind mk
    cases kind <;> cases mk <;> decide

end StorageProof
